import Mathlib

/-!
Verification of the Black-Scholes pricer (`src/prices.py`) and the iron-condor
strategy builder (`src/ironCondor.py`) of the Trading-Bot repository.

Python floats are modelled by real numbers; Python exceptions (the `ValueError`
raised by `math.log` / `math.sqrt` on a negative argument, and `ZeroDivisionError`)
are modelled by an `Except` result.  The `InvalidInput` error described by the
specification is a constructor of the same error type, so that statements about
its being raised (or not) can be expressed.
-/

open Real MeasureTheory intervalIntegral Set

noncomputable section

namespace TradingBot

/-- Errors a pricing call can produce.  `invalidInput` is the validation error the
specification describes; `domainError` models a Python `ValueError` /
`ZeroDivisionError` escaping from `math.log`, `math.sqrt` or a division. -/
inductive PyError where
  | invalidInput : PyError
  | domainError : PyError
deriving DecidableEq

/-- Python's `str.lower`, mapping every character to lower case (the option-kind
strings handled by the pricer are ASCII, where this agrees with Python). -/
def str_lower (s : String) : String := ⟨s.data.map Char.toLower⟩

/-- The error function, `erf x = (2/sqrt pi) * integral of exp (-t^2) over [0, x]`.
This is the mathematical function computed by Python's `math.erf`. -/
def erf (x : ℝ) : ℝ := 2 / Real.sqrt π * ∫ t in (0:ℝ)..x, Real.exp (-t ^ 2)

/-- `norm_cdf` from `src/prices.py`: `0.5 * (1.0 + math.erf(x / math.sqrt(2.0)))`. -/
def norm_cdf (x : ℝ) : ℝ := 0.5 * (1 + erf (x / Real.sqrt 2))

/-- `norm_pdf` from `src/prices.py`: `math.exp(-0.5 * x * x) / math.sqrt(2.0 * math.pi)`. -/
def norm_pdf (x : ℝ) : ℝ := Real.exp (-0.5 * x * x) / Real.sqrt (2 * π)

/-- The dict returned by `black_scholes`: keys
`price`, `delta`, `gamma`, `vega`, `theta`, `rho`. -/
structure Greeks where
  price : ℝ
  delta : ℝ
  gamma : ℝ
  vega : ℝ
  theta : ℝ
  rho : ℝ

/-- `black_scholes` from `src/prices.py`, line by line.

* `option_type = option_type.lower()` is `String.toLower`;
* `if T <= 0`: intrinsic value, zero Greeks;
* `if sigma <= 0`: discounted forward intrinsic value, zero Greeks;
* otherwise the closed-form formulas.  Python raises `ZeroDivisionError` on
  `S / K` when `K = 0` and `ValueError` in `math.log` when `S / K <= 0`; both
  are modelled by `domainError` (in Lean `S / 0 = 0`, so the single test
  `S / K <= 0` covers both Python failure modes).  The function performs no
  input validation of its own. -/
def black_scholes (S K T r sigma : ℝ) (option_type : String) (q : ℝ) :
    Except PyError Greeks :=
  let ot := str_lower option_type
  if T ≤ 0 then
    .ok { price := if ot = "call" then max 0 (S - K) else max 0 (K - S),
          delta := 0, gamma := 0, vega := 0, theta := 0, rho := 0 }
  else if sigma ≤ 0 then
    let forward := S * Real.exp (-q * T)
    .ok { price := Real.exp (-r * T) *
            (if ot = "call" then max 0 (forward - K) else max 0 (K - forward)),
          delta := 0, gamma := 0, vega := 0, theta := 0, rho := 0 }
  else if S / K ≤ 0 then
    .error .domainError
  else
    let sqrtT := Real.sqrt T
    let d1 := (Real.log (S / K) + (r - q + 0.5 * sigma * sigma) * T) / (sigma * sqrtT)
    let d2 := d1 - sigma * sqrtT
    let gamma := Real.exp (-q * T) * norm_pdf d1 / (S * sigma * sqrtT)
    let vega := S * Real.exp (-q * T) * norm_pdf d1 * sqrtT
    if ot = "call" then
      .ok { price := S * Real.exp (-q * T) * norm_cdf d1
                     - K * Real.exp (-r * T) * norm_cdf d2,
            delta := Real.exp (-q * T) * norm_cdf d1,
            gamma := gamma, vega := vega,
            theta := -(S * sigma * Real.exp (-q * T) * norm_pdf d1) / (2 * sqrtT)
                     - r * K * Real.exp (-r * T) * norm_cdf d2
                     + q * S * Real.exp (-q * T) * norm_cdf d1,
            rho := K * T * Real.exp (-r * T) * norm_cdf d2 }
    else
      .ok { price := K * Real.exp (-r * T) * norm_cdf (-d2)
                     - S * Real.exp (-q * T) * norm_cdf (-d1),
            delta := Real.exp (-q * T) * (norm_cdf d1 - 1),
            gamma := gamma, vega := vega,
            theta := -(S * sigma * Real.exp (-q * T) * norm_pdf d1) / (2 * sqrtT)
                     + r * K * Real.exp (-r * T) * norm_cdf (-d2)
                     - q * S * Real.exp (-q * T) * norm_cdf (-d1),
            rho := -(K * T * Real.exp (-r * T) * norm_cdf (-d2)) }

/-- The dict of strikes returned by `iron_condor`. -/
structure CondorStrikes where
  long_put : ℝ
  short_put : ℝ
  short_call : ℝ
  long_call : ℝ

/-- `iron_condor` from `src/ironCondor.py`.  `math.sqrt(T)` raises a Python
`ValueError` when `T < 0`, modelled by `domainError`; otherwise
`move = S * sigma * sqrt T` and the four strikes are returned.  The parameter
`r` appears in the Python signature (default `0.0`) but is never used; there is
no input validation. -/
def iron_condor (S sigma T r width : ℝ) : Except PyError CondorStrikes :=
  if T < 0 then .error .domainError
  else
    let move := S * sigma * Real.sqrt T
    let short_put := S - move
    let long_put := short_put - width
    let short_call := S + move
    let long_call := short_call + width
    .ok { long_put := long_put, short_put := short_put,
          short_call := short_call, long_call := long_call }

/-- `iron_condor_payoff` from `src/ironCondor.py`:
starting from `credit`, subtract the short legs and add back the long legs. -/
def iron_condor_payoff (S_T : ℝ) (strikes : CondorStrikes) (credit : ℝ) : ℝ :=
  credit - max 0 (strikes.short_put - S_T) + max 0 (strikes.long_put - S_T)
         - max 0 (S_T - strikes.short_call) + max 0 (S_T - strikes.long_call)

/-- The auxiliary quantity `d1` of the Black-Scholes formulas,
`(ln(S/K) + (r - q + sigma^2/2) T) / (sigma sqrt T)`. -/
def bs_d1 (S K T r sigma q : ℝ) : ℝ :=
  (Real.log (S / K) + (r - q + 0.5 * sigma * sigma) * T) / (sigma * Real.sqrt T)

/-- The auxiliary quantity `d2 = d1 - sigma sqrt T`. -/
def bs_d2 (S K T r sigma q : ℝ) : ℝ := bs_d1 S K T r sigma q - sigma * Real.sqrt T

/-- The general-branch call price of `black_scholes`, as a function of the spot
(last argument), used to state monotonicity in `S`. -/
def callPrice (K T r sigma q S : ℝ) : ℝ :=
  S * Real.exp (-q * T) * norm_cdf (bs_d1 S K T r sigma q)
    - K * Real.exp (-r * T) * norm_cdf (bs_d2 S K T r sigma q)

/-- The general-branch put price of `black_scholes`, as a function of the spot
(last argument). -/
def putPrice (K T r sigma q S : ℝ) : ℝ :=
  K * Real.exp (-r * T) * norm_cdf (-bs_d2 S K T r sigma q)
    - S * Real.exp (-q * T) * norm_cdf (-bs_d1 S K T r sigma q)

/-! ## Helper lemmas -/

theorem str_lower_call : str_lower "call" = "call" := rfl

theorem str_lower_put : str_lower "put" = "put" := rfl

/-- A put-spread difference of hinge terms is between `0` and the spread width. -/
theorem max_sub_max_bounds {a b : ℝ} (x : ℝ) (hab : a ≤ b) :
    0 ≤ max 0 (b - x) - max 0 (a - x) ∧ max 0 (b - x) - max 0 (a - x) ≤ b - a := by
  constructor
  · have h := max_le_max (le_refl (0:ℝ)) (by linarith : a - x ≤ b - x)
    linarith
  · have h1 := le_max_right (0:ℝ) (a - x)
    have h2 := le_max_left (0:ℝ) (a - x)
    have h := max_le (by linarith : (0:ℝ) ≤ max 0 (a - x) + (b - a))
      (by linarith : b - x ≤ max 0 (a - x) + (b - a))
    linarith

/-- A call-spread difference of hinge terms is between `0` and the spread width. -/
theorem max_sub_max_bounds_right {a b : ℝ} (x : ℝ) (hab : a ≤ b) :
    0 ≤ max 0 (x - a) - max 0 (x - b) ∧ max 0 (x - a) - max 0 (x - b) ≤ b - a := by
  constructor
  · have h := max_le_max (le_refl (0:ℝ)) (by linarith : x - b ≤ x - a)
    linarith
  · have h1 := le_max_right (0:ℝ) (x - b)
    have h2 := le_max_left (0:ℝ) (x - b)
    have h := max_le (by linarith : (0:ℝ) ≤ max 0 (x - b) + (b - a))
      (by linarith : x - a ≤ max 0 (x - b) + (b - a))
    linarith

/-- The error function is odd. -/
theorem erf_neg (x : ℝ) : erf (-x) = -erf x := by
  unfold erf
  have h2 := intervalIntegral.integral_comp_neg (fun t => Real.exp (-t ^ 2))
    (a := -x) (b := 0)
  simp only [neg_neg, neg_sq, neg_zero] at h2
  rw [intervalIntegral.integral_symm (-x) 0, h2]
  ring

/-- Reflection formula for the normal CDF helper. -/
theorem norm_cdf_neg (x : ℝ) : norm_cdf (-x) = 1 - norm_cdf x := by
  unfold norm_cdf
  rw [neg_div, erf_neg]
  ring

/-- In the general branch (`T > 0`, `sigma > 0`, valid spot and strike) a call
is priced by the closed-form Black-Scholes formulas. -/
theorem bs_call_eq (S K T r sigma q : ℝ) (hS : 0 < S) (hK : 0 < K)
    (hT : 0 < T) (hsig : 0 < sigma) :
    black_scholes S K T r sigma "call" q =
      Except.ok { price := S * Real.exp (-q * T) * norm_cdf (bs_d1 S K T r sigma q)
                          - K * Real.exp (-r * T) * norm_cdf (bs_d2 S K T r sigma q),
                  delta := Real.exp (-q * T) * norm_cdf (bs_d1 S K T r sigma q),
                  gamma := Real.exp (-q * T) * norm_pdf (bs_d1 S K T r sigma q)
                           / (S * sigma * Real.sqrt T),
                  vega := S * Real.exp (-q * T) * norm_pdf (bs_d1 S K T r sigma q)
                          * Real.sqrt T,
                  theta := -(S * sigma * Real.exp (-q * T) * norm_pdf (bs_d1 S K T r sigma q))
                             / (2 * Real.sqrt T)
                           - r * K * Real.exp (-r * T) * norm_cdf (bs_d2 S K T r sigma q)
                           + q * S * Real.exp (-q * T) * norm_cdf (bs_d1 S K T r sigma q),
                  rho := K * T * Real.exp (-r * T) * norm_cdf (bs_d2 S K T r sigma q) } := by
  have hd : ¬ S / K ≤ 0 := not_le.mpr (div_pos hS hK)
  simp only [black_scholes, str_lower_call, bs_d1, bs_d2]
  rw [if_neg (not_le.mpr hT), if_neg (not_le.mpr hsig), if_neg hd]
  norm_num

/-- In the general branch a put is priced by the closed-form Black-Scholes
formulas. -/
theorem bs_put_eq (S K T r sigma q : ℝ) (hS : 0 < S) (hK : 0 < K)
    (hT : 0 < T) (hsig : 0 < sigma) :
    black_scholes S K T r sigma "put" q =
      Except.ok { price := K * Real.exp (-r * T) * norm_cdf (-bs_d2 S K T r sigma q)
                          - S * Real.exp (-q * T) * norm_cdf (-bs_d1 S K T r sigma q),
                  delta := Real.exp (-q * T) * (norm_cdf (bs_d1 S K T r sigma q) - 1),
                  gamma := Real.exp (-q * T) * norm_pdf (bs_d1 S K T r sigma q)
                           / (S * sigma * Real.sqrt T),
                  vega := S * Real.exp (-q * T) * norm_pdf (bs_d1 S K T r sigma q)
                          * Real.sqrt T,
                  theta := -(S * sigma * Real.exp (-q * T) * norm_pdf (bs_d1 S K T r sigma q))
                             / (2 * Real.sqrt T)
                           + r * K * Real.exp (-r * T) * norm_cdf (-bs_d2 S K T r sigma q)
                           - q * S * Real.exp (-q * T) * norm_cdf (-bs_d1 S K T r sigma q),
                  rho := -(K * T * Real.exp (-r * T) * norm_cdf (-bs_d2 S K T r sigma q)) } := by
  have hd : ¬ S / K ≤ 0 := not_le.mpr (div_pos hS hK)
  simp only [black_scholes, str_lower_put, bs_d1, bs_d2]
  rw [if_neg (not_le.mpr hT), if_neg (not_le.mpr hsig), if_neg hd,
    if_neg (by decide : ¬ ("put" = "call"))]

/-- Fundamental theorem of calculus applied to the error function. -/
theorem erf_hasDerivAt (x : ℝ) :
    HasDerivAt erf (2 / Real.sqrt π * Real.exp (-x ^ 2)) x := by
  have hc : Continuous fun t : ℝ => Real.exp (-t ^ 2) := by continuity
  exact HasDerivAt.const_mul (2 / Real.sqrt π)
    ((hc.integral_hasStrictDerivAt 0 x).hasDerivAt)

/-- The derivative of `norm_cdf` is `norm_pdf`. -/
theorem norm_cdf_hasDerivAt (x : ℝ) : HasDerivAt norm_cdf (norm_pdf x) x := by
  have h1 : HasDerivAt (fun y : ℝ => y / Real.sqrt 2) (1 / Real.sqrt 2) x := by
    simpa using (hasDerivAt_id x).div_const (Real.sqrt 2)
  have h2 := (erf_hasDerivAt (x / Real.sqrt 2)).comp x h1
  have h3 := HasDerivAt.const_mul (0.5 : ℝ) (h2.const_add 1)
  have hval : norm_pdf x
      = 0.5 * (2 / Real.sqrt π * Real.exp (-(x / Real.sqrt 2) ^ 2) * (1 / Real.sqrt 2)) := by
    have harg : -(x / Real.sqrt 2) ^ 2 = -0.5 * x * x := by
      rw [div_pow, Real.sq_sqrt (by norm_num : (0:ℝ) ≤ 2)]
      ring
    unfold norm_pdf
    rw [harg, Real.sqrt_mul (by norm_num : (0:ℝ) ≤ 2)]
    have hπ : Real.sqrt π ≠ 0 := (Real.sqrt_pos.mpr Real.pi_pos).ne'
    have hs2 : Real.sqrt 2 ≠ 0 := by positivity
    field_simp
    ring
  rw [hval]
  exact h3

/-- The interval integral of the Gaussian over `[0, x]` is at most the
half-line Gaussian integral `sqrt pi / 2`. -/
theorem integral_exp_neg_sq_le (x : ℝ) (hx : 0 ≤ x) :
    ∫ t in (0:ℝ)..x, Real.exp (-t ^ 2) ≤ Real.sqrt π / 2 := by
  have hfun : (fun t : ℝ => Real.exp (-t ^ 2)) = fun t : ℝ => Real.exp (-1 * t ^ 2) := by
    funext t
    norm_num
  have hint : IntegrableOn (fun t : ℝ => Real.exp (-t ^ 2)) (Set.Ioi 0) volume := by
    rw [hfun]
    exact (integrable_exp_neg_mul_sq one_pos).integrableOn
  have hIoi : ∫ t in Set.Ioi (0:ℝ), Real.exp (-t ^ 2) = Real.sqrt π / 2 := by
    rw [hfun]
    simpa using integral_gaussian_Ioi 1
  rw [intervalIntegral.integral_of_le hx, ← hIoi]
  refine setIntegral_mono_set hint ?_ ?_
  · exact Filter.Eventually.of_forall fun t => (Real.exp_pos _).le
  · exact HasSubset.Subset.eventuallyLE Set.Ioc_subset_Ioi_self

/-- The error function is bounded above by `1`. -/
theorem erf_le_one (x : ℝ) : erf x ≤ 1 := by
  rcases le_or_lt 0 x with hx | hx
  · unfold erf
    have h := integral_exp_neg_sq_le x hx
    have hπ : Real.sqrt π ≠ 0 := (Real.sqrt_pos.mpr Real.pi_pos).ne'
    have h2 : (0:ℝ) ≤ 2 / Real.sqrt π := by positivity
    calc 2 / Real.sqrt π * ∫ t in (0:ℝ)..x, Real.exp (-t ^ 2)
        ≤ 2 / Real.sqrt π * (Real.sqrt π / 2) := mul_le_mul_of_nonneg_left h h2
      _ = 1 := by field_simp
  · have hneg : 0 ≤ erf (-x) := by
      unfold erf
      refine mul_nonneg (by positivity) ?_
      exact intervalIntegral.integral_nonneg (by linarith) fun u _ => (Real.exp_pos _).le
    have h := erf_neg x
    linarith

/-- The error function is bounded below by `-1`. -/
theorem neg_one_le_erf (x : ℝ) : -1 ≤ erf x := by
  have h := erf_le_one (-x)
  rw [erf_neg] at h
  linarith

/-- `norm_cdf` is nonnegative. -/
theorem norm_cdf_nonneg (x : ℝ) : 0 ≤ norm_cdf x := by
  unfold norm_cdf
  have h := neg_one_le_erf (x / Real.sqrt 2)
  linarith

/-- `norm_cdf` is at most one. -/
theorem norm_cdf_le_one (x : ℝ) : norm_cdf x ≤ 1 := by
  unfold norm_cdf
  have h := erf_le_one (x / Real.sqrt 2)
  linarith

/-- The Black-Scholes kernel identity
`S e^(-qT) phi(d1) = K e^(-rT) phi(d2)`. -/
theorem bs_pdf_identity (S K T r sigma q : ℝ) (hS : 0 < S) (hK : 0 < K)
    (hT : 0 < T) (hsig : 0 < sigma) :
    S * Real.exp (-q * T) * norm_pdf (bs_d1 S K T r sigma q)
      = K * Real.exp (-r * T) * norm_pdf (bs_d2 S K T r sigma q) := by
  have hsq : Real.sqrt T ^ 2 = T := Real.sq_sqrt hT.le
  have hs0 : Real.sqrt T ≠ 0 := (Real.sqrt_pos.mpr hT).ne'
  have hσ0 : sigma ≠ 0 := hsig.ne'
  have key : bs_d1 S K T r sigma q * (sigma * Real.sqrt T)
      = (Real.log S - Real.log K) + (r - q + 0.5 * sigma * sigma) * T := by
    unfold bs_d1
    rw [Real.log_div hS.ne' hK.ne']
    field_simp
  have hexp : -0.5 * bs_d2 S K T r sigma q * bs_d2 S K T r sigma q
      = -0.5 * bs_d1 S K T r sigma q * bs_d1 S K T r sigma q
        + (Real.log S - Real.log K) + (r - q) * T := by
    unfold bs_d2
    linear_combination key - 0.5 * sigma * sigma * hsq
  have main : Real.exp (Real.log S) * Real.exp (-q * T)
        * Real.exp (-0.5 * bs_d1 S K T r sigma q * bs_d1 S K T r sigma q)
      = Real.exp (Real.log K) * Real.exp (-r * T)
        * Real.exp (-0.5 * bs_d2 S K T r sigma q * bs_d2 S K T r sigma q) := by
    rw [← Real.exp_add, ← Real.exp_add, ← Real.exp_add, ← Real.exp_add]
    exact congrArg Real.exp (by linear_combination (-1 : ℝ) * hexp)
  rw [Real.exp_log hS, Real.exp_log hK] at main
  unfold norm_pdf
  calc S * Real.exp (-q * T)
        * (Real.exp (-0.5 * bs_d1 S K T r sigma q * bs_d1 S K T r sigma q)
            / Real.sqrt (2 * π))
      = S * Real.exp (-q * T)
          * Real.exp (-0.5 * bs_d1 S K T r sigma q * bs_d1 S K T r sigma q)
          / Real.sqrt (2 * π) := by ring
    _ = K * Real.exp (-r * T)
          * Real.exp (-0.5 * bs_d2 S K T r sigma q * bs_d2 S K T r sigma q)
          / Real.sqrt (2 * π) := by rw [main]
    _ = K * Real.exp (-r * T)
          * (Real.exp (-0.5 * bs_d2 S K T r sigma q * bs_d2 S K T r sigma q)
              / Real.sqrt (2 * π)) := by ring

/-- The derivative of `d1` (and of `d2`) with respect to the spot. -/
theorem bs_d1_hasDerivAt (K T r sigma q S : ℝ) (hS : 0 < S) (hK : 0 < K)
    (hsig : 0 < sigma) (hs0 : Real.sqrt T ≠ 0) :
    HasDerivAt (fun y => bs_d1 y K T r sigma q) (1 / (S * sigma * Real.sqrt T)) S := by
  have h1 : HasDerivAt (fun y : ℝ => y / K) (1 / K) S := by
    simpa using (hasDerivAt_id S).div_const K
  have hne : S / K ≠ 0 := (div_pos hS hK).ne'
  have h2 := (Real.hasDerivAt_log hne).comp S h1
  have h3 := (h2.add_const ((r - q + 0.5 * sigma * sigma) * T)).div_const
    (sigma * Real.sqrt T)
  refine h3.congr_deriv ?_
  rw [inv_div]
  field_simp
  ring

/-- The delta of the general-branch call: derivative of `callPrice` in spot. -/
theorem callPrice_hasDerivAt (K T r sigma q S : ℝ) (hS : 0 < S) (hK : 0 < K)
    (hT : 0 < T) (hsig : 0 < sigma) :
    HasDerivAt (callPrice K T r sigma q)
      (Real.exp (-q * T) * norm_cdf (bs_d1 S K T r sigma q)) S := by
  have hs0 : Real.sqrt T ≠ 0 := (Real.sqrt_pos.mpr hT).ne'
  have hd1 := bs_d1_hasDerivAt K T r sigma q S hS hK hsig hs0
  have hd2 : HasDerivAt (fun y => bs_d2 y K T r sigma q)
      (1 / (S * sigma * Real.sqrt T)) S := hd1.sub_const (sigma * Real.sqrt T)
  have hN1 := (norm_cdf_hasDerivAt (bs_d1 S K T r sigma q)).comp S hd1
  have hN2 := (norm_cdf_hasDerivAt (bs_d2 S K T r sigma q)).comp S hd2
  have hfull := (((hasDerivAt_id S).mul_const (Real.exp (-q * T))).mul hN1).sub
    (HasDerivAt.const_mul (K * Real.exp (-r * T)) hN2)
  refine hfull.congr_deriv ?_
  simp only [Function.comp_apply, id_eq]
  linear_combination (1 / (S * sigma * Real.sqrt T))
    * bs_pdf_identity S K T r sigma q hS hK hT hsig

/-- Pointwise put-call parity between the general-branch price functions. -/
theorem putPrice_eq (K T r sigma q y : ℝ) :
    putPrice K T r sigma q y
      = callPrice K T r sigma q y - y * Real.exp (-q * T) + K * Real.exp (-r * T) := by
  unfold putPrice callPrice
  rw [norm_cdf_neg, norm_cdf_neg]
  ring

/-- The delta of the general-branch put: derivative of `putPrice` in spot. -/
theorem putPrice_hasDerivAt (K T r sigma q S : ℝ) (hS : 0 < S) (hK : 0 < K)
    (hT : 0 < T) (hsig : 0 < sigma) :
    HasDerivAt (putPrice K T r sigma q)
      (Real.exp (-q * T) * (norm_cdf (bs_d1 S K T r sigma q) - 1)) S := by
  have hfn : putPrice K T r sigma q
      = fun y => callPrice K T r sigma q y - y * Real.exp (-q * T)
        + K * Real.exp (-r * T) := funext fun y => putPrice_eq K T r sigma q y
  rw [hfn]
  have hc := callPrice_hasDerivAt K T r sigma q S hS hK hT hsig
  have h := (hc.sub ((hasDerivAt_id S).mul_const (Real.exp (-q * T)))).add_const
    (K * Real.exp (-r * T))
  refine h.congr_deriv ?_
  ring

/-- The general-branch call price is monotone in spot on positive spots. -/
theorem callPrice_monotoneOn (K T r sigma q : ℝ) (hK : 0 < K) (hT : 0 < T)
    (hsig : 0 < sigma) :
    MonotoneOn (callPrice K T r sigma q) (Set.Ioi 0) := by
  refine monotoneOn_of_deriv_nonneg (convex_Ioi 0) ?_ ?_ ?_
  · intro y hy
    exact (callPrice_hasDerivAt K T r sigma q y hy hK hT hsig).continuousAt.continuousWithinAt
  · intro y hy
    rw [interior_Ioi] at hy
    exact (callPrice_hasDerivAt K T r sigma q y hy hK hT hsig).differentiableAt.differentiableWithinAt
  · intro y hy
    rw [interior_Ioi] at hy
    rw [(callPrice_hasDerivAt K T r sigma q y hy hK hT hsig).deriv]
    exact mul_nonneg (Real.exp_pos _).le (norm_cdf_nonneg _)

/-- The general-branch put price is antitone in spot on positive spots. -/
theorem putPrice_antitoneOn (K T r sigma q : ℝ) (hK : 0 < K) (hT : 0 < T)
    (hsig : 0 < sigma) :
    AntitoneOn (putPrice K T r sigma q) (Set.Ioi 0) := by
  refine antitoneOn_of_deriv_nonpos (convex_Ioi 0) ?_ ?_ ?_
  · intro y hy
    exact (putPrice_hasDerivAt K T r sigma q y hy hK hT hsig).continuousAt.continuousWithinAt
  · intro y hy
    rw [interior_Ioi] at hy
    exact (putPrice_hasDerivAt K T r sigma q y hy hK hT hsig).differentiableAt.differentiableWithinAt
  · intro y hy
    rw [interior_Ioi] at hy
    rw [(putPrice_hasDerivAt K T r sigma q y hy hK hT hsig).deriv]
    have h1 := norm_cdf_le_one (bs_d1 y K T r sigma q)
    have h2 := (Real.exp_pos (-q * T)).le
    nlinarith

/-! ## Claims -/

/-- C1: for `S, K, T, sigma > 0` the pricer returns exactly the closed-form
Black-Scholes price and Greeks for the call and the put, with `d1` and `d2`
as specified and `N = norm_cdf`, `phi = norm_pdf`. -/
theorem bs_general_formulas (S K T r sigma q : ℝ) (hS : 0 < S) (hK : 0 < K)
    (hT : 0 < T) (hsig : 0 < sigma) :
    black_scholes S K T r sigma "call" q =
      Except.ok { price := S * Real.exp (-q * T) * norm_cdf (bs_d1 S K T r sigma q)
                          - K * Real.exp (-r * T) * norm_cdf (bs_d2 S K T r sigma q),
                  delta := Real.exp (-q * T) * norm_cdf (bs_d1 S K T r sigma q),
                  gamma := Real.exp (-q * T) * norm_pdf (bs_d1 S K T r sigma q)
                           / (S * sigma * Real.sqrt T),
                  vega := S * Real.exp (-q * T) * norm_pdf (bs_d1 S K T r sigma q)
                          * Real.sqrt T,
                  theta := -(S * sigma * Real.exp (-q * T) * norm_pdf (bs_d1 S K T r sigma q))
                             / (2 * Real.sqrt T)
                           - r * K * Real.exp (-r * T) * norm_cdf (bs_d2 S K T r sigma q)
                           + q * S * Real.exp (-q * T) * norm_cdf (bs_d1 S K T r sigma q),
                  rho := K * T * Real.exp (-r * T) * norm_cdf (bs_d2 S K T r sigma q) } ∧
    black_scholes S K T r sigma "put" q =
      Except.ok { price := K * Real.exp (-r * T) * norm_cdf (-bs_d2 S K T r sigma q)
                          - S * Real.exp (-q * T) * norm_cdf (-bs_d1 S K T r sigma q),
                  delta := Real.exp (-q * T) * (norm_cdf (bs_d1 S K T r sigma q) - 1),
                  gamma := Real.exp (-q * T) * norm_pdf (bs_d1 S K T r sigma q)
                           / (S * sigma * Real.sqrt T),
                  vega := S * Real.exp (-q * T) * norm_pdf (bs_d1 S K T r sigma q)
                          * Real.sqrt T,
                  theta := -(S * sigma * Real.exp (-q * T) * norm_pdf (bs_d1 S K T r sigma q))
                             / (2 * Real.sqrt T)
                           + r * K * Real.exp (-r * T) * norm_cdf (-bs_d2 S K T r sigma q)
                           - q * S * Real.exp (-q * T) * norm_cdf (-bs_d1 S K T r sigma q),
                  rho := -(K * T * Real.exp (-r * T) * norm_cdf (-bs_d2 S K T r sigma q)) } :=
  ⟨bs_call_eq S K T r sigma q hS hK hT hsig, bs_put_eq S K T r sigma q hS hK hT hsig⟩

/-- Witness for C1 at `S = 1, K = 1, T = 1, r = 0, sigma = 1, q = 0`. -/
theorem bs_general_formulas_witness :
    ((0:ℝ) < 1 ∧ (0:ℝ) < 1 ∧ (0:ℝ) < 1 ∧ (0:ℝ) < 1) ∧
    black_scholes 1 1 1 0 1 "call" 0 =
      Except.ok { price := 1 * Real.exp (-0 * 1) * norm_cdf (bs_d1 1 1 1 0 1 0)
                          - 1 * Real.exp (-0 * 1) * norm_cdf (bs_d2 1 1 1 0 1 0),
                  delta := Real.exp (-0 * 1) * norm_cdf (bs_d1 1 1 1 0 1 0),
                  gamma := Real.exp (-0 * 1) * norm_pdf (bs_d1 1 1 1 0 1 0)
                           / (1 * 1 * Real.sqrt 1),
                  vega := 1 * Real.exp (-0 * 1) * norm_pdf (bs_d1 1 1 1 0 1 0)
                          * Real.sqrt 1,
                  theta := -(1 * 1 * Real.exp (-0 * 1) * norm_pdf (bs_d1 1 1 1 0 1 0))
                             / (2 * Real.sqrt 1)
                           - 0 * 1 * Real.exp (-0 * 1) * norm_cdf (bs_d2 1 1 1 0 1 0)
                           + 0 * 1 * Real.exp (-0 * 1) * norm_cdf (bs_d1 1 1 1 0 1 0),
                  rho := 1 * 1 * Real.exp (-0 * 1) * norm_cdf (bs_d2 1 1 1 0 1 0) } :=
  ⟨⟨one_pos, one_pos, one_pos, one_pos⟩,
    (bs_general_formulas 1 1 1 0 1 0 one_pos one_pos one_pos one_pos).1⟩

/-- C5: put-call parity, exactly over the reals: for `S, K, T, sigma > 0` the
call and put succeed and `call.price - put.price = S e^(-qT) - K e^(-rT)`. -/
theorem put_call_parity (S K T r sigma q : ℝ) (hS : 0 < S) (hK : 0 < K)
    (hT : 0 < T) (hsig : 0 < sigma) :
    ∃ gc gp : Greeks,
      black_scholes S K T r sigma "call" q = Except.ok gc ∧
      black_scholes S K T r sigma "put" q = Except.ok gp ∧
      gc.price - gp.price = S * Real.exp (-q * T) - K * Real.exp (-r * T) := by
  refine ⟨_, _, bs_call_eq S K T r sigma q hS hK hT hsig,
    bs_put_eq S K T r sigma q hS hK hT hsig, ?_⟩
  dsimp only
  rw [norm_cdf_neg, norm_cdf_neg]
  ring

/-- Witness for C5 at `S = 1, K = 1, T = 1, r = 0, sigma = 1, q = 0`. -/
theorem put_call_parity_witness :
    ((0:ℝ) < 1 ∧ (0:ℝ) < 1 ∧ (0:ℝ) < 1 ∧ (0:ℝ) < 1) ∧
    ∃ gc gp : Greeks,
      black_scholes 1 1 1 0 1 "call" 0 = Except.ok gc ∧
      black_scholes 1 1 1 0 1 "put" 0 = Except.ok gp ∧
      gc.price - gp.price = 1 * Real.exp (-0 * 1) - 1 * Real.exp (-0 * 1) :=
  ⟨⟨one_pos, one_pos, one_pos, one_pos⟩,
    put_call_parity 1 1 1 0 1 0 one_pos one_pos one_pos one_pos⟩

/-- C2: at `T = 0` the pricer returns the undiscounted intrinsic value
(`max 0 (S - K)` for a call, `max 0 (K - S)` for a put) and every other
field is exactly zero, for all `S`, `K`, `r`, `sigma`, `q`. -/
theorem bs_expiry_intrinsic (S K r sigma q : ℝ) :
    black_scholes S K 0 r sigma "call" q =
      Except.ok { price := max 0 (S - K), delta := 0, gamma := 0, vega := 0,
                  theta := 0, rho := 0 } ∧
    black_scholes S K 0 r sigma "put" q =
      Except.ok { price := max 0 (K - S), delta := 0, gamma := 0, vega := 0,
                  theta := 0, rho := 0 } := by
  constructor <;>
  · simp only [black_scholes, str_lower_call, str_lower_put]
    rw [if_pos le_rfl]
    simp

/-- C3: at `sigma = 0` with `T > 0` the pricer returns the discounted intrinsic
value of the forward `F = S * exp (-q * T)` and every other field is zero. -/
theorem bs_zero_vol (S K T r q : ℝ) (hT : 0 < T) :
    black_scholes S K T r 0 "call" q =
      Except.ok { price := Real.exp (-r * T) * max 0 (S * Real.exp (-q * T) - K),
                  delta := 0, gamma := 0, vega := 0, theta := 0, rho := 0 } ∧
    black_scholes S K T r 0 "put" q =
      Except.ok { price := Real.exp (-r * T) * max 0 (K - S * Real.exp (-q * T)),
                  delta := 0, gamma := 0, vega := 0, theta := 0, rho := 0 } := by
  constructor <;>
  · simp only [black_scholes, str_lower_call, str_lower_put]
    rw [if_neg (not_le.mpr hT), if_pos le_rfl]
    simp

/-- Witness for C3 at `S = 2, K = 1, T = 1, r = 0, q = 0`. -/
theorem bs_zero_vol_witness :
    (0:ℝ) < 1 ∧
    black_scholes 2 1 1 0 0 "call" 0 =
      Except.ok { price := 1, delta := 0, gamma := 0, vega := 0, theta := 0, rho := 0 } := by
  refine ⟨one_pos, ?_⟩
  have h := (bs_zero_vol 2 1 1 0 0 one_pos).1
  norm_num at h
  convert h using 3

/-- C4 counterexample: at `T = -1` (a violated precondition `T < 0`) the pricer
does not fail; it returns a full result through the expiry branch. -/
theorem bs_negative_time_returns_ok :
    black_scholes 100 100 (-1) 0.05 0.2 "call" 0 =
      Except.ok { price := 0, delta := 0, gamma := 0, vega := 0, theta := 0, rho := 0 } := by
  simp only [black_scholes, str_lower_call]
  norm_num

/-- C4 amended: `black_scholes` performs no input validation and never produces
the `InvalidInput` error on any input; the only possible failure is the math
domain error of `log` / division in the general branch. -/
theorem bs_never_invalid_input (S K T r sigma : ℝ) (option_type : String) (q : ℝ) :
    black_scholes S K T r sigma option_type q ≠ Except.error PyError.invalidInput := by
  simp only [black_scholes]
  rcases le_or_lt T 0 with h1 | h1
  · rw [if_pos h1]; simp
  · rw [if_neg (not_le.mpr h1)]
    rcases le_or_lt sigma 0 with h2 | h2
    · rw [if_pos h2]; simp
    · rw [if_neg (not_le.mpr h2)]
      rcases le_or_lt (S / K) 0 with h3 | h3
      · rw [if_pos h3]; simp
      · rw [if_neg (not_le.mpr h3)]
        split <;> simp

/-- C6: when the two spreads have equal positive width and the strikes are
ordered, the payoff lies between `credit - width` and `credit` for every
terminal price. -/
theorem payoff_bounded (x credit : ℝ) (cs : CondorStrikes)
    (h1 : cs.long_put ≤ cs.short_put) (h2 : cs.short_put ≤ cs.short_call)
    (h3 : cs.short_call ≤ cs.long_call)
    (heq : cs.long_call - cs.short_call = cs.short_put - cs.long_put)
    (hpos : 0 < cs.long_call - cs.short_call) :
    credit - (cs.long_call - cs.short_call) ≤ iron_condor_payoff x cs credit ∧
    iron_condor_payoff x cs credit ≤ credit := by
  unfold iron_condor_payoff
  obtain ⟨hA0, hAw⟩ := max_sub_max_bounds x h1
  obtain ⟨hC0, hCw⟩ := max_sub_max_bounds_right x h3
  rcases le_or_lt x cs.short_call with hx | hx
  · have hC : max 0 (x - cs.short_call) = 0 := max_eq_left (by linarith)
    have hD : max 0 (x - cs.long_call) = 0 := max_eq_left (by linarith)
    rw [hC, hD]
    constructor <;> linarith
  · have hA : max 0 (cs.short_put - x) = 0 := max_eq_left (by linarith)
    have hB : max 0 (cs.long_put - x) = 0 := max_eq_left (by linarith)
    rw [hA, hB]
    constructor <;> linarith

/-- Witness for C6 with strikes `85 < 90 < 110 < 115`, terminal price `100`,
credit `2`. -/
theorem payoff_bounded_witness :
    ((85:ℝ) ≤ 90 ∧ (90:ℝ) ≤ 110 ∧ (110:ℝ) ≤ 115 ∧
      (115:ℝ) - 110 = 90 - 85 ∧ (0:ℝ) < 115 - 110) ∧
    (2 - ((115:ℝ) - 110) ≤
        iron_condor_payoff 100
          { long_put := 85, short_put := 90, short_call := 110, long_call := 115 } 2 ∧
      iron_condor_payoff 100
          { long_put := 85, short_put := 90, short_call := 110, long_call := 115 } 2 ≤ 2) := by
  refine ⟨⟨by norm_num, by norm_num, by norm_num, by norm_num, by norm_num⟩, ?_⟩
  exact payoff_bounded 100 2
    { long_put := 85, short_put := 90, short_call := 110, long_call := 115 }
    (by norm_num) (by norm_num) (by norm_num) (by norm_num) (by norm_num)

/-- C7: when `move = S * sigma * sqrt T > 0` and `width > 0`, the builder
returns strikes `short_put = S - move`, `long_put = short_put - width`,
`short_call = S + move`, `long_call = short_call + width`, strictly ordered
`long_put < short_put < short_call < long_call`. -/
theorem condor_ordering (S sigma T r width : ℝ)
    (hmove : 0 < S * sigma * Real.sqrt T) (hw : 0 < width) :
    ∃ cs : CondorStrikes,
      iron_condor S sigma T r width = Except.ok cs ∧
      cs.short_put = S - S * sigma * Real.sqrt T ∧
      cs.long_put = cs.short_put - width ∧
      cs.short_call = S + S * sigma * Real.sqrt T ∧
      cs.long_call = cs.short_call + width ∧
      cs.long_put < cs.short_put ∧
      cs.short_put < cs.short_call ∧
      cs.short_call < cs.long_call := by
  have hT : ¬ T < 0 := by
    intro h
    rw [Real.sqrt_eq_zero_of_nonpos h.le] at hmove
    simp at hmove
  refine ⟨_, by rw [iron_condor, if_neg hT], rfl, rfl, rfl, rfl, ?_, ?_, ?_⟩ <;>
    dsimp <;> linarith

/-- Witness for C7 at `S = 100, sigma = 1, T = 1, width = 5`. -/
theorem condor_ordering_witness :
    (0:ℝ) < 100 * 1 * Real.sqrt 1 ∧ (0:ℝ) < 5 ∧
    ∃ cs : CondorStrikes,
      iron_condor 100 1 1 0 5 = Except.ok cs ∧ cs.long_put < cs.short_put ∧
      cs.short_put < cs.short_call ∧ cs.short_call < cs.long_call := by
  have h1 : (0:ℝ) < 100 * 1 * Real.sqrt 1 := by rw [Real.sqrt_one]; norm_num
  have h2 : (0:ℝ) < 5 := by norm_num
  obtain ⟨cs, he, _, _, _, _, o1, o2, o3⟩ := condor_ordering 100 1 1 0 5 h1 h2
  exact ⟨h1, h2, cs, he, o1, o2, o3⟩

/-- C8 counterexample: at `width = -5` (a violated precondition `width > 0`)
the builder does not fail; it returns strikes normally. -/
theorem condor_negative_width_returns_ok :
    iron_condor 100 0.2 1 0 (-5) =
      Except.ok { long_put := 85, short_put := 80, short_call := 120, long_call := 115 } := by
  unfold iron_condor
  rw [if_neg (by norm_num : ¬ (1:ℝ) < 0)]
  norm_num [Real.sqrt_one]

/-- C8 amended: `iron_condor` performs no input validation and never produces
`InvalidInput`; it fails (with the math domain error of `sqrt`) exactly when
`T < 0`, and otherwise returns strikes for any `S`, `sigma`, `width`. -/
theorem condor_error_iff_negative_time (S sigma T r width : ℝ) :
    iron_condor S sigma T r width ≠ Except.error PyError.invalidInput ∧
    ((∃ e, iron_condor S sigma T r width = Except.error e) ↔ T < 0) := by
  unfold iron_condor
  rcases lt_or_le T 0 with h | h
  · rw [if_pos h]
    constructor
    · simp
    · simp [h]
  · rw [if_neg (not_lt.mpr h)]
    constructor
    · simp
    · simp [not_lt.mpr h]

/-- C9: with `K, T, sigma > 0` and `r, q` fixed, the call price returned by the
pricer is non-decreasing in the spot and the put price is non-increasing in the
spot, over the domain `S > 0`. -/
theorem bs_monotone_in_spot (K T r sigma q S1 S2 : ℝ) (hK : 0 < K) (hT : 0 < T)
    (hsig : 0 < sigma) (hS1 : 0 < S1) (h12 : S1 ≤ S2) :
    ∃ c1 c2 p1 p2 : Greeks,
      black_scholes S1 K T r sigma "call" q = Except.ok c1 ∧
      black_scholes S2 K T r sigma "call" q = Except.ok c2 ∧
      black_scholes S1 K T r sigma "put" q = Except.ok p1 ∧
      black_scholes S2 K T r sigma "put" q = Except.ok p2 ∧
      c1.price ≤ c2.price ∧ p2.price ≤ p1.price := by
  have hS2 : 0 < S2 := lt_of_lt_of_le hS1 h12
  refine ⟨_, _, _, _, bs_call_eq S1 K T r sigma q hS1 hK hT hsig,
    bs_call_eq S2 K T r sigma q hS2 hK hT hsig,
    bs_put_eq S1 K T r sigma q hS1 hK hT hsig,
    bs_put_eq S2 K T r sigma q hS2 hK hT hsig, ?_, ?_⟩
  · exact callPrice_monotoneOn K T r sigma q hK hT hsig hS1 hS2 h12
  · exact putPrice_antitoneOn K T r sigma q hK hT hsig hS1 hS2 h12

/-- Witness for C9 at `K = 1, T = 1, r = 0, sigma = 1, q = 0, S1 = 1, S2 = 2`. -/
theorem bs_monotone_in_spot_witness :
    ((0:ℝ) < 1 ∧ (0:ℝ) < 1 ∧ (0:ℝ) < 1 ∧ (0:ℝ) < 1 ∧ (1:ℝ) ≤ 2) ∧
    ∃ c1 c2 p1 p2 : Greeks,
      black_scholes 1 1 1 0 1 "call" 0 = Except.ok c1 ∧
      black_scholes 2 1 1 0 1 "call" 0 = Except.ok c2 ∧
      black_scholes 1 1 1 0 1 "put" 0 = Except.ok p1 ∧
      black_scholes 2 1 1 0 1 "put" 0 = Except.ok p2 ∧
      c1.price ≤ c2.price ∧ p2.price ≤ p1.price :=
  ⟨⟨one_pos, one_pos, one_pos, one_pos, by norm_num⟩,
    bs_monotone_in_spot 1 1 0 1 0 1 2 one_pos one_pos one_pos one_pos (by norm_num)⟩

/-- C10: the `r` parameter of `iron_condor` has no influence on the result:
two calls differing only in the rate return identical outputs. -/
theorem condor_rate_irrelevant (S sigma T width r1 r2 : ℝ) :
    iron_condor S sigma T r1 width = iron_condor S sigma T r2 width := rfl

end TradingBot

end
